import Mathlib

/-!
Verification of the refraction simulation engine (Rust sources under
src/app/simulation).  The engine is embedded shallowly: `f32` arithmetic is
modelled by exact rational arithmetic (`ℚ`), Rust `Vec` by `List`, and the
global constants `DIVISIONS`, `WORLD_SIZE`, `TIME_STEP`, `C` by the fields of
a configuration record so that theorems quantify over them; `cfgStd` below
instantiates them with the values from variables.rs.  Places where IEEE
float semantics differ from exact arithmetic (division by zero, saturating
float-to-integer casts) are modelled explicitly and noted at the definition.
-/

/-- Global simulation constants.  In the source these are the compile-time
constants `DIVISIONS : usize`, the world half-width used by field.rs (the
field spans `[-w, w]` with samples at `linspace(-w, w, divisions)`),
`TIME_STEP` and the propagation speed `C`. -/
structure Cfg where
  divisions : ℕ
  w : ℚ
  timeStep : ℚ
  c : ℚ
deriving DecidableEq

/-- The constants of variables.rs: `DIVISIONS = 1001`, world half-width 20,
`TIME_STEP = 1/60` (SIMULATION_FPS = 60), `C = 1`. -/
def cfgStd : Cfg := ⟨1001, 20, 1/60, 1⟩

/-- A small configuration (3 samples over `[-1, 1]`) used for concrete
evaluations; the field code is uniform in these constants. -/
def cfgSmall : Cfg := ⟨3, 1, 1/60, 1⟩

/-- Grid spacing: field.rs `STEP = 2.0 * WORLD_SIZE / ((DIVISIONS - 1) as f32)`
(the subtraction is on `usize`, hence truncated, matching `Nat` subtraction). -/
def Cfg.step (cfg : Cfg) : ℚ :=
  2 * cfg.w / ((cfg.divisions - 1 : ℕ) : ℚ)

/-- A sampled field: field.rs `SimpleField.field`.  The fixed position array
`x_points` is an immutable linspace, recovered by `positionAt`. -/
structure SimpleField where
  values : List ℚ
deriving DecidableEq

/-- Field constructor: `Array::zeros(Ix1(DIVISIONS))`. -/
def SimpleField.new (cfg : Cfg) : SimpleField :=
  ⟨List.replicate cfg.divisions 0⟩

/-- Sample position `x_points[i]` of `linspace(-WORLD_SIZE, WORLD_SIZE, DIVISIONS)`. -/
def positionAt (cfg : Cfg) (i : ℕ) : ℚ :=
  -cfg.w + (i : ℚ) * cfg.step

/-- Fractional index: field.rs `index_of_flt(x) = (x + WORLD_SIZE) / STEP`. -/
def indexOfFlt (cfg : Cfg) (x : ℚ) : ℚ :=
  (x + cfg.w) / cfg.step

/-- The closure `get_value` of `value_at`: `values.get(i as usize).unwrap_or(&0.0)`.
Rust casts the float index with `as usize`, which saturates: a negative index
becomes 0 (so it reads `values[0]`), an index past the end yields `None` and
hence 0.  `Int.toNat` reproduces exactly that saturation. -/
def getVal (vals : List ℚ) (i : ℤ) : ℚ :=
  vals.getD i.toNat 0

/-- Linear interpolation lookup: field.rs `value_at`.  Computes the fractional
index, reads the floor and ceiling neighbours through `getVal`, and blends
them with weights `(1 - idx + lower_idx)` and `(idx - lower_idx)`. -/
def valueAt (cfg : Cfg) (f : SimpleField) (x : ℚ) : ℚ :=
  let idx := indexOfFlt cfg x
  let lowerIdx := ⌊idx⌋
  let upperIdx := ⌈idx⌉
  let lower := getVal f.values lowerIdx
  let upper := getVal f.values upperIdx
  lower * (1 - idx + (lowerIdx : ℚ)) + upper * (idx - (lowerIdx : ℚ))

/-- Bulk assignment: `set_from_function` writes `values[i] = f(x_points[i], t)`
for every sample index. -/
def setFromFunction (cfg : Cfg) (g : ℚ → ℚ → ℚ) (t : ℚ) : SimpleField :=
  ⟨(List.range cfg.divisions).map (fun i => g (positionAt cfg i) t)⟩

/-- Elementwise superposition: `add` performs `self.field += &rhs.field`
(all fields in the system share the one configured sample count). -/
def addField (a b : SimpleField) : SimpleField :=
  ⟨List.zipWith (· + ·) a.values b.values⟩

/-!
The particle model: simulation.rs `PointInTime`, `ChargedParticle` and the
particle types of particle.rs.
-/

/-- Particle types: particle.rs `ChargedParticleType`. -/
inductive ChargedParticleType where
  | Electron : ChargedParticleType
  | Proton : ChargedParticleType

/-- Charge from `retrieve_properties`: Electron -1, Proton +1. -/
def ChargedParticleType.charge : ChargedParticleType → ℚ
  | .Electron => -1
  | .Proton => 1

/-- Mass from `retrieve_properties`: Electron `ELECTRON_MASS.initial = 0.5`,
Proton 1836. -/
def ChargedParticleType.mass : ChargedParticleType → ℚ
  | .Electron => 1/2
  | .Proton => 1836

/-- Default spring constant: Electron `SPRING_CONSTANT.initial = 0.5`, Proton 2. -/
def ChargedParticleType.defaultSpringConstant : ChargedParticleType → ℚ
  | .Electron => 1/2
  | .Proton => 2

/-- Default damping: Electron `ELECTRON_DAMPING.initial = 0.0`, Proton 0.8. -/
def ChargedParticleType.defaultDamping : ChargedParticleType → ℚ
  | .Electron => 0
  | .Proton => 4/5

/-- One history record: simulation.rs `PointInTime`. -/
structure PointInTime where
  t : ℚ
  y : ℚ
  v : ℚ
  a : ℚ

/-- A charged particle: simulation.rs `ChargedParticle`.  `posx`/`posy` are the
components of the egui `Pos2` position; velocity and acceleration are enforced
to lie along y.  The induced field and the append-only history belong to the
particle. -/
structure ChargedParticle where
  ptype : ChargedParticleType
  mass : ℚ
  posx : ℚ
  posy : ℚ
  velocity : ℚ
  acceleration : ℚ
  springConstant : ℚ
  damping : ℚ
  field : SimpleField
  history : List PointInTime

/-- Placeholder element for `List.getD` lookups into particle collections. -/
def defaultParticle : ChargedParticle :=
  ⟨.Electron, 0, 0, 0, 0, 0, 0, 0, ⟨[]⟩, []⟩

/-- Constructor `ChargedParticle::new(position, field_size, particle_type)`:
zero velocity and acceleration, a fresh zero field, empty history, and the
type defaults for mass, spring constant and damping. -/
def ChargedParticle.new (cfg : Cfg) (x : ℚ) (ty : ChargedParticleType) :
    ChargedParticle :=
  ⟨ty, ty.mass, x, 0, 0, 0, ty.defaultSpringConstant, ty.defaultDamping,
    SimpleField.new cfg, []⟩

/-- Snapshot of the current kinematic state: `ChargedParticle::snapshot(t)`. -/
def snapshot (p : ChargedParticle) (t : ℚ) : PointInTime :=
  ⟨t, p.posy, p.velocity, p.acceleration⟩

/-- Retarded-history lookup: `ChargedParticle::retarded_rva(x, t)`.  With fewer
than two history entries it returns the current snapshot.  Otherwise it
computes `past_t = max(t - distance/C, 0)`, estimates the history index as
`floor(len * past_t / t)` (the float-to-`usize` cast saturates negatives to 0,
matching `Int.toNat`), reads the two neighbouring records (falling back to the
current snapshot when the index is out of range), and blends them with factor
`(past_t - t1.t)/(t2.t - t1.t)`.  Division by zero in `f32` yields NaN where
the rational model yields 0; theorems below avoid inputs where the divisor
`t2.t - t1.t` (or `t`) vanishes. -/
def retardedRVA (cfg : Cfg) (p : ChargedParticle) (x t : ℚ) : PointInTime :=
  let now := snapshot p t
  if p.history.length < 2 then now
  else
    let distance := |x - p.posx|
    let pastT := max (t - distance / cfg.c) 0
    let i := (⌊(p.history.length : ℚ) * pastT / t⌋).toNat
    let t1 := p.history.getD i now
    let t2 := p.history.getD (i + 1) now
    let f := (pastT - t1.t) / (t2.t - t1.t)
    ⟨pastT, t1.y * (1 - f) + t2.y * f, t1.v * (1 - f) + t2.v * f,
      t1.a * (1 - f) + t2.a * f⟩

/-- Kinematic step: `ChargedParticle::update_position(applied_field_strength, t)`.
Computes the spring/damping force, divides by mass, advances velocity then
position (semi-implicit Euler), and appends the new snapshot to the history. -/
def updatePosition (cfg : Cfg) (p : ChargedParticle) (e t : ℚ) : ChargedParticle :=
  let force := p.ptype.charge * e - p.springConstant * p.posy - p.damping * p.velocity
  let a := force / p.mass
  let v := p.velocity + cfg.timeStep * a
  let y := p.posy + cfg.timeStep * v
  { p with
      acceleration := a
      velocity := v
      posy := y
      history := p.history ++ [⟨t, y, v, a⟩] }

/-- Field radiated to the observer at `(x, 0)`: the body of the loop of
`ChargedParticle::update_induced_field`.  The source computes
`cos_theta = |r.x| / mod_r` with `mod_r = |(r.x, y)|` and then
`INV_C_2 * charge * (a * cos_theta) / mod_r`; since `mod_r^2 = r.x^2 + y^2`,
that value equals `charge * a * |r.x| / (C^2 * (r.x^2 + y^2))` in exact
arithmetic, which is the form used here (`mod_r` itself is a square root and
has no rational embedding).  The sample is forced to 0 when `|r.x|` is below
one grid spacing `field.size() / (DIVISIONS - 1)`. -/
def inducedAt (cfg : Cfg) (p : ChargedParticle) (t x : ℚ) : ℚ :=
  let e := retardedRVA cfg p x t
  let rx := p.posx - x
  if |rx| < 2 * cfg.w / ((cfg.divisions - 1 : ℕ) : ℚ) then 0
  else (1 / cfg.c ^ 2) * (p.ptype.charge * (e.a * |rx|) / (rx ^ 2 + e.y ^ 2))

/-- Field recomputation: `ChargedParticle::update_induced_field(t)` overwrites
every sample of the particle field. -/
def updateInducedField (cfg : Cfg) (p : ChargedParticle) (t : ℚ) : ChargedParticle :=
  { p with field := ⟨(List.range cfg.divisions).map (fun i => inducedAt cfg p t (positionAt cfg i))⟩ }

/-- One particle tick: `ChargedParticle::update` runs `update_position` then
`update_induced_field` (the induced field thus sees the new history entry). -/
def particleUpdate (cfg : Cfg) (p : ChargedParticle) (e t : ℚ) : ChargedParticle :=
  updateInducedField cfg (updatePosition cfg p e t) t

/-!
The orchestrator: simulation.rs `Simulation`.  The active waveform is stored
as the sampled function it supplies (`waveform.properties().function`); the
concrete shapes of waveform.rs are transcendental and play no role in the
claims, which hold for every forcing function.
-/

/-- Simulation state: simulation.rs `Simulation`.  `t` is elapsed time;
`particleCount` and `particleSpacing` drive the resize operation; the three
trailing globals are copied into every particle each tick. -/
structure Simulation where
  t : ℚ
  waveform : ℚ → ℚ → ℚ
  appliedField : SimpleField
  resultantField : SimpleField
  particles : List ChargedParticle
  particleCount : ℕ
  particleSpacing : ℚ
  ptype : ChargedParticleType
  springConstant : ℚ
  particleMass : ℚ
  damping : ℚ

/-- The per-particle pass of `Simulation::update`: for each particle in order,
read the resultant field at the particle x-position, copy the global
mass/spring/damping into the particle, run the particle update, and add the
freshly recomputed induced field into the resultant field in place.  Returns
the updated particles, the final resultant field, and (for the analysis of
the same-tick coupling) the list of applied-field strengths each particle
received. -/
def updateLoopAux (cfg : Cfg) (m k d t : ℚ) :
    List ChargedParticle → SimpleField →
      List ChargedParticle × SimpleField × List ℚ
  | [], res => ([], res, [])
  | p :: ps, res =>
    let e := valueAt cfg res p.posx
    let p' := particleUpdate cfg { p with mass := m, springConstant := k, damping := d } e t
    let res' := addField res p'.field
    let out := updateLoopAux cfg m k d t ps res'
    (p' :: out.1, out.2.1, e :: out.2.2)

/-- One tick: `Simulation::update`.  Seeds both field buffers from the active
waveform at the current time, runs the particle pass, then advances `t` by
`TIME_STEP`.  The Rust function also returns a completion flag that is
constantly `false` in this configuration. -/
def simUpdate (cfg : Cfg) (s : Simulation) : Simulation :=
  let applied := setFromFunction cfg s.waveform s.t
  let res0 := setFromFunction cfg s.waveform s.t
  let out := updateLoopAux cfg s.particleMass s.springConstant s.damping s.t s.particles res0
  { s with
      appliedField := applied
      resultantField := out.2.1
      particles := out.1
      t := s.t + cfg.timeStep }

/-- The applied-field strengths seen by the particles during one tick, in
collection order. -/
def tickInputs (cfg : Cfg) (s : Simulation) : List ℚ :=
  (updateLoopAux cfg s.particleMass s.springConstant s.damping s.t s.particles
    (setFromFunction cfg s.waveform s.t)).2.2

/-- Reset: `Simulation::reset` zeroes `t`, reallocates both field buffers and
repopulates the collection with `particle_count` particles at
`-i * particle_spacing`. -/
def simReset (cfg : Cfg) (s : Simulation) : Simulation :=
  { s with
      t := 0
      appliedField := SimpleField.new cfg
      resultantField := SimpleField.new cfg
      particles := (List.range s.particleCount).map
        (fun i => ChargedParticle.new cfg (-(i : ℚ) * s.particleSpacing) s.ptype) }

/-- Rust `Vec::resize_with(n, f)` where the closure produces elements from a
counter that starts at the current length: truncates when shrinking, appends
`f len, f (len+1), ...` when growing. -/
def resizeWith (l : List ChargedParticle) (n : ℕ) (f : ℕ → ChargedParticle) :
    List ChargedParticle :=
  if n ≤ l.length then l.take n
  else l ++ (List.range (n - l.length)).map (fun j => f (l.length + j))

/-- Live resize: `Simulation::update_particles(update_all)`.  When
`update_all` holds the collection is first truncated to a single origin
particle (growing an empty collection to one).  Then, when the target count
differs from the current length, the source computes
`let mut i = self.particles.len() - 1` on `usize` before resizing; on an
empty collection that subtraction underflows (a panic in debug builds),
modelled here as `none`.  Otherwise the collection is resized, new particles
appearing at consecutively spaced positions. -/
def updateParticles (cfg : Cfg) (s : Simulation) (updateAll : Bool) :
    Option Simulation :=
  let ps1 := if updateAll
    then resizeWith s.particles 1 (fun _ => ChargedParticle.new cfg 0 s.ptype)
    else s.particles
  if s.particleCount = ps1.length then some { s with particles := ps1 }
  else if ps1.length = 0 then none
  else
    let ps2 := resizeWith ps1 s.particleCount
      (fun i => ChargedParticle.new cfg (-(i : ℚ) * s.particleSpacing) s.ptype)
    some { s with particles := ps2 }

/-- Capacity query: `Simulation::max_particles` computes
`(self.size.min.abs() / self.particle_spacing).floor() as u32` in `f32`.
With spacing 0 the division yields `+inf` for a nonzero numerator (NaN for
zero over zero) and the saturating `as u32` cast turns `+inf` into
`u32::MAX` and NaN into 0; with nonzero spacing, the cast clamps the floored
quotient into `[0, u32::MAX]`.  Both IEEE behaviours are spelled out here. -/
def maxParticles (cfg : Cfg) (s : Simulation) : ℕ :=
  if s.particleSpacing = 0 then
    if |cfg.w| = 0 then 0 else 2 ^ 32 - 1
  else
    min (2 ^ 32 - 1) (⌊|cfg.w| / s.particleSpacing⌋).toNat

/-!
Concrete states used by counterexamples and witnesses.
-/

/-- The oscillator of spec scenario 2: charge 1 (hence `Proton` type, charge
being fixed by the type), mass overridden to 0.5, no spring, no damping, at
rest at the origin. -/
def scenarioOscillator : ChargedParticle :=
  ⟨.Proton, 1/2, 0, 0, 0, 0, 0, 0, ⟨[]⟩, []⟩

/-- An undriven damped oscillator that also carries a stretched spring:
mass 0.5, spring constant 0.5, damping 0.5, displacement 1000, velocity 1. -/
def dampedSwing : ChargedParticle :=
  ⟨.Electron, 1/2, 0, 1000, 1, 0, 1/2, 1/2, ⟨[]⟩, []⟩

/-- An undriven damped oscillator without a spring: mass 0.5, spring constant
0, damping 0.5, velocity 1. -/
def dampedOnly : ChargedParticle :=
  ⟨.Electron, 1/2, 0, 0, 1, 0, 0, 1/2, ⟨[]⟩, []⟩

/-- A particle with five history records at times `k/60`, displaced only in
the fourth record. -/
def pRet : ChargedParticle :=
  ⟨.Electron, 1/2, 0, 0, 0, 0, 1/2, 0, ⟨[]⟩,
    [⟨0, 0, 0, 0⟩, ⟨1/60, 0, 0, 0⟩, ⟨2/60, 0, 0, 0⟩, ⟨3/60, 1, 0, 0⟩, ⟨4/60, 0, 0, 0⟩]⟩

/-- A particle with three history records on the uniform `1/60` grid. -/
def pWit : ChargedParticle :=
  ⟨.Electron, 1/2, 0, 0, 0, 0, 1/2, 0, ⟨[]⟩,
    [⟨0, 5, 6, 7⟩, ⟨1/60, 8, 9, 10⟩, ⟨2/60, 11, 12, 13⟩]⟩

/-- A particle whose stored mass (5) differs from the simulation global. -/
def pMass5 : ChargedParticle :=
  ⟨.Electron, 5, 0, 0, 0, 0, 1/2, 0, ⟨[]⟩, []⟩

/-- A two-particle simulation whose global mass (7) differs from the stored
particle masses (5). -/
def simMassT : Simulation :=
  ⟨0, fun _ _ => 0, ⟨[]⟩, ⟨[]⟩, [pMass5, { pMass5 with posx := -1/2 }], 2, 1/2,
    .Electron, 0, 7, 0⟩

/-- A simulation whose particle spacing has been set to 0. -/
def simZeroSpacing : Simulation :=
  ⟨0, fun _ _ => 0, ⟨[]⟩, ⟨[]⟩, [pMass5], 1, 0, .Electron, 1/2, 1/2, 0⟩

/-- A simulation with an empty particle collection and target count 1. -/
def simEmpty : Simulation :=
  ⟨0, fun _ _ => 0, ⟨[]⟩, ⟨[]⟩, [], 1, 3, .Electron, 1/2, 1/2, 0⟩

/-!
Helper lemmas.
-/

/-- Evaluation helper for concrete ceilings (there is no norm_num extension
for `Int.ceil` in this Mathlib version). -/
theorem ceil_eval {q : ℚ} {z : ℤ} (h1 : (z : ℚ) - 1 < q) (h2 : q ≤ (z : ℚ)) :
    ⌈q⌉ = z :=
  Int.ceil_eq_iff.mpr ⟨h1, h2⟩

/-- Evaluation helper for concrete floors. -/
theorem floor_eval {q : ℚ} {z : ℤ} (h1 : (z : ℚ) ≤ q) (h2 : q < (z : ℚ) + 1) :
    ⌊q⌋ = z :=
  Int.floor_eq_iff.mpr ⟨h1, h2⟩

/-- Closed form of `value_at`, unfolding the intermediate bindings. -/
theorem valueAt_def (cfg : Cfg) (f : SimpleField) (x : ℚ) :
    valueAt cfg f x =
      getVal f.values ⌊indexOfFlt cfg x⌋ *
          (1 - indexOfFlt cfg x + (⌊indexOfFlt cfg x⌋ : ℚ)) +
        getVal f.values ⌈indexOfFlt cfg x⌉ *
          (indexOfFlt cfg x - (⌊indexOfFlt cfg x⌋ : ℚ)) := rfl

/-- Closed form of `retarded_rva` when the history holds at least two records
and the retarded time, the estimated index and the blend factor are given. -/
theorem retardedRVA_eval (cfg : Cfg) (p : ChargedParticle) (x t pt fct : ℚ) (i : ℕ)
    (h2 : 2 ≤ p.history.length)
    (hpt : max (t - |x - p.posx| / cfg.c) 0 = pt)
    (hi : (⌊(p.history.length : ℚ) * pt / t⌋).toNat = i)
    (hfct : (pt - (p.history.getD i (snapshot p t)).t) /
        ((p.history.getD (i + 1) (snapshot p t)).t -
          (p.history.getD i (snapshot p t)).t) = fct) :
    retardedRVA cfg p x t =
      ⟨pt,
        (p.history.getD i (snapshot p t)).y * (1 - fct) +
          (p.history.getD (i + 1) (snapshot p t)).y * fct,
        (p.history.getD i (snapshot p t)).v * (1 - fct) +
          (p.history.getD (i + 1) (snapshot p t)).v * fct,
        (p.history.getD i (snapshot p t)).a * (1 - fct) +
          (p.history.getD (i + 1) (snapshot p t)).a * fct⟩ := by
  unfold retardedRVA
  rw [if_neg (by omega)]
  subst hpt hi hfct
  rfl

/-- The resultant accumulator after the particle pass is the fold of the
freshly recomputed particle fields over the seeded buffer. -/
theorem updateLoopAux_res (cfg : Cfg) (m k d t : ℚ) :
    ∀ (ps : List ChargedParticle) (res : SimpleField),
      (updateLoopAux cfg m k d t ps res).2.1 =
        List.foldl addField res
          ((updateLoopAux cfg m k d t ps res).1.map (fun p => p.field))
  | [], res => rfl
  | p :: ps, res => by
    simp only [updateLoopAux, List.map_cons, List.foldl_cons]
    exact updateLoopAux_res cfg m k d t ps _

/-- Every recomputed particle field has exactly `DIVISIONS` samples. -/
theorem updateLoopAux_field_lengths (cfg : Cfg) (m k d t : ℚ) :
    ∀ (ps : List ChargedParticle) (res : SimpleField),
      (updateLoopAux cfg m k d t ps res).1.map (fun p => p.field.values.length) =
        List.replicate ps.length cfg.divisions
  | [], _ => rfl
  | p :: ps, res => by
    simp only [updateLoopAux, List.map_cons, List.length_cons,
      List.replicate_succ]
    refine congrArg₂ _ ?_ (updateLoopAux_field_lengths cfg m k d t ps _)
    simp [particleUpdate, updateInducedField]

/-- The applied strength seen by particle `i` is the interpolated value of the
seed buffer plus the fields of the particles processed earlier in the pass. -/
theorem updateLoopAux_inputs (cfg : Cfg) (m k d t : ℚ) :
    ∀ (ps : List ChargedParticle) (res : SimpleField) (i : ℕ), i < ps.length →
      (updateLoopAux cfg m k d t ps res).2.2.getD i 0 =
        valueAt cfg
          (List.foldl addField res
            (((updateLoopAux cfg m k d t ps res).1.take i).map (fun p => p.field)))
          ((ps.getD i defaultParticle).posx)
  | [], _, i, hi => by simp at hi
  | p :: ps, res, 0, _ => by
    simp [updateLoopAux]
  | p :: ps, res, i + 1, hi => by
    simp only [updateLoopAux, List.getD_cons_succ, List.take_succ_cons,
      List.map_cons, List.foldl_cons]
    exact updateLoopAux_inputs cfg m k d t ps _ i (by simpa using hi)

/-- The particle pass keeps x-position and type, and overwrites mass, spring
constant and damping with the simulation globals. -/
theorem updateLoopAux_frame (cfg : Cfg) (m k d t : ℚ) :
    ∀ (ps : List ChargedParticle) (res : SimpleField),
      (updateLoopAux cfg m k d t ps res).1.map
          (fun p => (p.posx, p.ptype, p.mass, p.springConstant, p.damping)) =
        ps.map (fun p => (p.posx, p.ptype, m, k, d))
  | [], _ => rfl
  | p :: ps, res => by
    simp only [updateLoopAux, List.map_cons]
    refine congrArg₂ _ ?_ (updateLoopAux_frame cfg m k d t ps _)
    simp [particleUpdate, updateInducedField, updatePosition]

/-!
Claim theorems.
-/

/-- Claim C1, counterexample.  With five history records at times `k/60`
(displacement `[0,0,0,1,0]`), querying from `x = 11/600` at `t = 1/15` gives
retarded time `pastT = 29/600`, which is bracketed by records 2 and 3
(`2/60 <= pastT <= 3/60`); the interpolation between that bracketing pair
with factor `(pastT - t1.t)/(t2.t - t1.t) = 9/10` is `9/10`, but
`retarded_rva` estimates index `floor(5 * pastT / t) = 3` and returns
`11/10`: the returned kinematics are not the bracketing interpolation the
claim requires. -/
theorem retarded_counterexample :
    2 ≤ pRet.history.length ∧
    max ((1:ℚ)/15 - |(11:ℚ)/600 - pRet.posx| / cfgStd.c) 0 = 29/600 ∧
    (pRet.history.getD 2 (snapshot pRet (1/15))).t ≤ 29/600 ∧
    (29:ℚ)/600 ≤ (pRet.history.getD 3 (snapshot pRet (1/15))).t ∧
    (pRet.history.getD 2 (snapshot pRet (1/15))).y *
        (1 - (29/600 - (pRet.history.getD 2 (snapshot pRet (1/15))).t) /
          ((pRet.history.getD 3 (snapshot pRet (1/15))).t -
            (pRet.history.getD 2 (snapshot pRet (1/15))).t)) +
      (pRet.history.getD 3 (snapshot pRet (1/15))).y *
        ((29/600 - (pRet.history.getD 2 (snapshot pRet (1/15))).t) /
          ((pRet.history.getD 3 (snapshot pRet (1/15))).t -
            (pRet.history.getD 2 (snapshot pRet (1/15))).t)) = 9/10 ∧
    (retardedRVA cfgStd pRet (11/600) (1/15)).y = 11/10 ∧
    (11:ℚ)/10 ≠ 9/10 := by
  have hmax : max ((1:ℚ)/15 - |(11:ℚ)/600 - pRet.posx| / cfgStd.c) 0 = 29/600 := by
    rw [show (11:ℚ)/600 - pRet.posx = 11/600 by norm_num [pRet]]
    rw [abs_of_nonneg (by norm_num : (0:ℚ) ≤ 11/600)]
    rw [show (1:ℚ)/15 - 11/600 / cfgStd.c = 29/600 by norm_num [cfgStd]]
    exact max_eq_left (by norm_num)
  refine ⟨by norm_num [pRet], hmax, ?_, ?_, ?_, ?_, by norm_num⟩
  · norm_num [pRet, List.getD]
  · norm_num [pRet, List.getD]
  · norm_num [pRet, List.getD]
  · have h := retardedRVA_eval cfgStd pRet (11/600) (1/15) (29/600) (-1/10) 3
      (by norm_num [pRet])
      hmax
      (by
        have hlen : ((pRet.history.length : ℚ)) = 5 := by norm_num [pRet]
        rw [hlen]
        have hq : (5:ℚ) * (29/600) / (1/15) = 29/8 := by norm_num
        rw [hq, floor_eval (z := 3) (by norm_num) (by norm_num)]
        rfl)
      (by norm_num [pRet, List.getD])
    rw [h]
    norm_num [pRet, List.getD]

/-- Claim C1, amended.  When the history records sit on the uniform time grid
`k * TIME_STEP`, the query time is the grid time `t = (len - 1) * TIME_STEP`,
and the retarded time equals a recorded timestamp `m * TIME_STEP` with
`m <= len - 2`, the estimated index lands on the bracketing pair and
`retarded_rva` returns exactly the recorded `(y, v, a)` of record `m` (the
general bracketing property of the original claim fails, see the
counterexample; exactness at the latest record `m = len - 1` is also
excluded, the code dividing by zero there). -/
theorem retarded_grid_exact (cfg : Cfg) (p : ChargedParticle) (x t : ℚ) (m : ℕ)
    (h2 : 2 ≤ p.history.length)
    (huni : ∀ k, k < p.history.length →
        (p.history.getD k (snapshot p t)).t = (k : ℚ) * cfg.timeStep)
    (ht : t = ((p.history.length - 1 : ℕ) : ℚ) * cfg.timeStep)
    (hdt : 0 < cfg.timeStep)
    (hm : m ≤ p.history.length - 2)
    (hx : t - |x - p.posx| / cfg.c = (m : ℚ) * cfg.timeStep) :
    retardedRVA cfg p x t =
      ⟨(m : ℚ) * cfg.timeStep,
        (p.history.getD m (snapshot p t)).y,
        (p.history.getD m (snapshot p t)).v,
        (p.history.getD m (snapshot p t)).a⟩ := by
  have hmn : m < p.history.length := by omega
  have hm1n : m + 1 < p.history.length := by omega
  have hn2 : (2 : ℚ) ≤ (p.history.length : ℚ) := by exact_mod_cast h2
  have hne : (p.history.length : ℚ) - 1 ≠ 0 := by linarith
  have hcast : ((p.history.length - 1 : ℕ) : ℚ) = (p.history.length : ℚ) - 1 := by
    have h1 : (1 : ℕ) ≤ p.history.length := by omega
    push_cast [h1]
    ring
  have hmcast : (m : ℚ) ≤ (p.history.length : ℚ) - 2 := by
    have := (Nat.cast_le (α := ℚ)).mpr hm
    have hc2 : ((p.history.length - 2 : ℕ) : ℚ) = (p.history.length : ℚ) - 2 := by
      have h2n : (2 : ℕ) ≤ p.history.length := h2
      push_cast [h2n]
      ring
    linarith [hc2 ▸ this]
  have hq : (p.history.length : ℚ) * ((m : ℚ) * cfg.timeStep) / t =
      (m : ℚ) + (m : ℚ) / ((p.history.length : ℚ) - 1) := by
    rw [ht, hcast]
    field_simp
    ring
  have hfrac1 : (m : ℚ) / ((p.history.length : ℚ) - 1) < 1 :=
    (div_lt_one (by linarith)).mpr (by linarith)
  have hfrac0 : 0 ≤ (m : ℚ) / ((p.history.length : ℚ) - 1) :=
    div_nonneg (Nat.cast_nonneg m) (by linarith)
  have hfloor : (⌊(p.history.length : ℚ) * ((m : ℚ) * cfg.timeStep) / t⌋).toNat = m := by
    rw [hq, floor_eval (z := (m : ℤ)) (by push_cast; linarith) (by push_cast; linarith)]
    exact Int.toNat_natCast m
  have h := retardedRVA_eval cfg p x t ((m : ℚ) * cfg.timeStep) 0 m h2
    (by rw [hx]; exact max_eq_left (mul_nonneg (Nat.cast_nonneg m) hdt.le))
    hfloor
    (by
      rw [huni m hmn]
      simp)
  rw [h]
  norm_num

/-- Claim C1, witness for the amended theorem: three uniform records, query
hitting record 1 exactly. -/
theorem retarded_grid_exact_witness :
    2 ≤ pWit.history.length ∧ (0 : ℚ) < cfgStd.timeStep ∧
    1 ≤ pWit.history.length - 2 ∧
    retardedRVA cfgStd pWit (1/60) (1/30) = ⟨1/60, 8, 9, 10⟩ := by
  refine ⟨by norm_num [pWit], by norm_num [cfgStd], by norm_num [pWit], ?_⟩
  have h := retarded_grid_exact cfgStd pWit (1/60) (1/30) 1
    (by norm_num [pWit])
    (by
      intro k hk
      norm_num [pWit] at hk
      interval_cases k <;> norm_num [pWit, List.getD, cfgStd])
    (by norm_num [pWit, cfgStd])
    (by norm_num [cfgStd])
    (by norm_num [pWit])
    (by
      rw [show (1:ℚ)/60 - pWit.posx = 1/60 by norm_num [pWit]]
      rw [abs_of_nonneg (by norm_num : (0:ℚ) ≤ 1/60)]
      norm_num [cfgStd])
  rw [h]
  norm_num [pWit, List.getD, cfgStd]

/-- Claim C2, counterexample.  For the field `[0, 1, 2]` over `[-1, 1]`, the
query `x = 3/2` lies strictly outside the sampled extent yet
`value_at` returns 1, not 0: the lower neighbour index 2 is still in range
and contributes `values[2] * (1 - frac)`. -/
theorem valueAt_outside_nonzero :
    (1 : ℚ) < 3/2 ∧ valueAt cfgSmall ⟨[0, 1, 2]⟩ (3/2) = 1 ∧ (1 : ℚ) ≠ 0 := by
  refine ⟨by norm_num, ?_, by norm_num⟩
  have hidx : indexOfFlt cfgSmall (3/2) = 5/2 := by
    norm_num [indexOfFlt, cfgSmall, Cfg.step]
  have hfl : ⌊indexOfFlt cfgSmall (3/2)⌋ = 2 := by
    rw [hidx]; exact floor_eval (by norm_num) (by norm_num)
  have hce : ⌈indexOfFlt cfgSmall (3/2)⌉ = 3 := by
    rw [hidx]; exact ceil_eval (by norm_num) (by norm_num)
  rw [valueAt_def, hfl, hce, hidx]
  norm_num [getVal, List.getD, show Int.toNat 2 = 2 from rfl,
    show Int.toNat 3 = 3 from rfl]

/-- Claim C2, amended.  A neighbour read only clamps to 0 when its index is
at or past `sampleCount`; so `value_at` returns 0 whenever the floor of the
fractional index is at least `sampleCount` (both reads clamp), while for a
nonpositive ceiling both saturating casts read `values[0]` and `value_at`
returns `values[0]` (queries below the extent are not clamped to 0). -/
theorem valueAt_clamp (cfg : Cfg) (f : SimpleField) (x : ℚ) :
    ((f.values.length : ℤ) ≤ ⌊indexOfFlt cfg x⌋ → valueAt cfg f x = 0) ∧
    (⌈indexOfFlt cfg x⌉ ≤ 0 → valueAt cfg f x = f.values.getD 0 0) := by
  constructor
  · intro h
    have hc : (f.values.length : ℤ) ≤ ⌈indexOfFlt cfg x⌉ :=
      le_trans h (Int.floor_le_ceil _)
    have h1 : getVal f.values ⌊indexOfFlt cfg x⌋ = 0 := by
      unfold getVal
      exact List.getD_eq_default _ _ (by
        have := Int.toNat_le_toNat h
        simpa using this)
    have h2 : getVal f.values ⌈indexOfFlt cfg x⌉ = 0 := by
      unfold getVal
      exact List.getD_eq_default _ _ (by
        have := Int.toNat_le_toNat hc
        simpa using this)
    rw [valueAt_def, h1, h2]
    ring
  · intro h
    have hf : ⌊indexOfFlt cfg x⌋ ≤ 0 := le_trans (Int.floor_le_ceil _) h
    have h1 : getVal f.values ⌊indexOfFlt cfg x⌋ = f.values.getD 0 0 := by
      unfold getVal
      rw [Int.toNat_of_nonpos hf]
    have h2 : getVal f.values ⌈indexOfFlt cfg x⌉ = f.values.getD 0 0 := by
      unfold getVal
      rw [Int.toNat_of_nonpos h]
    rw [valueAt_def, h1, h2]
    ring

/-- Claim C2, witness for the amended theorem: at `x = 10` the floor index 11
is past the 3 samples and the value is 0; at `x = -3` the ceiling index is
-2 and the value is `values[0] = 4`. -/
theorem valueAt_clamp_witness :
    ((([4, 5, 6] : List ℚ).length : ℤ) ≤ ⌊indexOfFlt cfgSmall 10⌋ ∧
      valueAt cfgSmall ⟨[4, 5, 6]⟩ 10 = 0) ∧
    (⌈indexOfFlt cfgSmall (-3)⌉ ≤ 0 ∧
      valueAt cfgSmall ⟨[4, 5, 6]⟩ (-3) = ([4, 5, 6] : List ℚ).getD 0 0) := by
  have hfl : ⌊indexOfFlt cfgSmall 10⌋ = 11 := by
    rw [show indexOfFlt cfgSmall 10 = 11 by norm_num [indexOfFlt, cfgSmall, Cfg.step]]
    norm_num
  have hce : ⌈indexOfFlt cfgSmall (-3)⌉ = -2 := by
    rw [show indexOfFlt cfgSmall (-3) = -2 by norm_num [indexOfFlt, cfgSmall, Cfg.step]]
    exact ceil_eval (by norm_num) (by norm_num)
  refine ⟨⟨by rw [hfl]; norm_num, (valueAt_clamp cfgSmall ⟨[4, 5, 6]⟩ 10).1
      (by rw [hfl]; norm_num)⟩,
    ⟨by rw [hce]; norm_num, (valueAt_clamp cfgSmall ⟨[4, 5, 6]⟩ (-3)).2
      (by rw [hce]; norm_num)⟩⟩

/-- Claim C3.  After `Simulation::update` returns, the resultant field equals
the applied field plus the sum, in order, of every particle field as
recomputed during the call; all these fields hold exactly `DIVISIONS`
samples, so the fold is a sample-by-sample sum. -/
theorem resultant_superposition (cfg : Cfg) (s : Simulation) :
    (simUpdate cfg s).resultantField =
      List.foldl addField (simUpdate cfg s).appliedField
        ((simUpdate cfg s).particles.map (fun p => p.field)) ∧
    (simUpdate cfg s).particles.map (fun p => p.field.values.length) =
      List.replicate s.particles.length cfg.divisions := by
  constructor
  · simp only [simUpdate]
    exact updateLoopAux_res cfg s.particleMass s.springConstant s.damping s.t
      s.particles _
  · simp only [simUpdate]
    exact updateLoopAux_field_lengths cfg s.particleMass s.springConstant
      s.damping s.t s.particles _

/-- Claim C4.  During one `Simulation::update` pass, the applied field
strength handed to particle `i` is the interpolated value, at the x-position
of particle `i`, of the waveform-seeded resultant buffer plus exactly the
freshly recomputed fields of the particles processed before `i` in the same
tick. -/
theorem same_tick_coupling (cfg : Cfg) (s : Simulation) (i : ℕ)
    (hi : i < s.particles.length) :
    (tickInputs cfg s).getD i 0 =
      valueAt cfg
        (List.foldl addField (setFromFunction cfg s.waveform s.t)
          (((simUpdate cfg s).particles.take i).map (fun p => p.field)))
        ((s.particles.getD i defaultParticle).posx) := by
  simp only [tickInputs, simUpdate]
  exact updateLoopAux_inputs cfg s.particleMass s.springConstant s.damping s.t
    s.particles _ i hi

/-- Claim C4, witness: the second particle of a two-particle simulation. -/
theorem same_tick_coupling_witness :
    (1 : ℕ) < simMassT.particles.length ∧
    (tickInputs cfgSmall simMassT).getD 1 0 =
      valueAt cfgSmall
        (List.foldl addField (setFromFunction cfgSmall simMassT.waveform simMassT.t)
          (((simUpdate cfgSmall simMassT).particles.take 1).map (fun p => p.field)))
        ((simMassT.particles.getD 1 defaultParticle).posx) := by
  exact ⟨by norm_num [simMassT, pMass5], same_tick_coupling cfgSmall simMassT 1
    (by norm_num [simMassT, pMass5])⟩

/-- Claim C5.  One call to `update_position` with strength `e` at time `t`
computes `force = charge*e - springConstant*y - damping*velocity`,
`acceleration = force/mass`, advances `velocity` by `dt*acceleration` and
then `y` by `dt*velocity` (semi-implicit Euler, velocity first), and appends
exactly one snapshot `{t, y, velocity, acceleration}` to the history; in
particular the scenario oscillator (mass 0.5, no spring, no damping, charge
1, at rest) driven once with `e = 1` ends with velocity `dt * 2`. -/
theorem particle_step (cfg : Cfg) (p : ChargedParticle) (e t : ℚ) :
    (updatePosition cfg p e t =
      { p with
          acceleration :=
            (p.ptype.charge * e - p.springConstant * p.posy - p.damping * p.velocity) / p.mass
          velocity :=
            p.velocity + cfg.timeStep *
              ((p.ptype.charge * e - p.springConstant * p.posy - p.damping * p.velocity) / p.mass)
          posy :=
            p.posy + cfg.timeStep * (p.velocity + cfg.timeStep *
              ((p.ptype.charge * e - p.springConstant * p.posy - p.damping * p.velocity) / p.mass))
          history := p.history ++
            [⟨t,
              p.posy + cfg.timeStep * (p.velocity + cfg.timeStep *
                ((p.ptype.charge * e - p.springConstant * p.posy - p.damping * p.velocity) / p.mass)),
              p.velocity + cfg.timeStep *
                ((p.ptype.charge * e - p.springConstant * p.posy - p.damping * p.velocity) / p.mass),
              (p.ptype.charge * e - p.springConstant * p.posy - p.damping * p.velocity) / p.mass⟩] }) ∧
    (particleUpdate cfg scenarioOscillator 1 0).velocity = cfg.timeStep * 2 := by
  refine ⟨rfl, ?_⟩
  simp [particleUpdate, updateInducedField, updatePosition, scenarioOscillator,
    ChargedParticleType.charge]

/-- Claim C6.  Evaluating a field at a grid position reproduces the stored
sample exactly: `value_at(position_at(i)) = values[i]` for every valid index
(`w` nonzero and at least two samples keep the grid spacing nonzero). -/
theorem valueAt_grid_exact (cfg : Cfg) (f : SimpleField) (i : ℕ)
    (hdiv : 2 ≤ cfg.divisions) (hw : cfg.w ≠ 0) (hi : i < f.values.length) :
    valueAt cfg f (positionAt cfg i) = f.values.getD i 0 := by
  have hd : ((cfg.divisions - 1 : ℕ) : ℚ) ≠ 0 := by
    exact Nat.cast_ne_zero.mpr (by omega)
  have hstep : cfg.step ≠ 0 := by
    unfold Cfg.step
    exact div_ne_zero (by simpa using hw) hd
  have hidx : indexOfFlt cfg (positionAt cfg i) = (i : ℚ) := by
    unfold indexOfFlt positionAt
    field_simp
  rw [valueAt_def, hidx, Int.floor_natCast, Int.ceil_natCast]
  simp only [getVal, Int.toNat_natCast]
  ring

/-- Claim C6, witness: spec scenario 1, the middle sample of `[0, 1, 2]`. -/
theorem valueAt_grid_exact_witness :
    2 ≤ cfgSmall.divisions ∧ cfgSmall.w ≠ 0 ∧
    1 < ([0, 1, 2] : List ℚ).length ∧
    valueAt cfgSmall ⟨[0, 1, 2]⟩ (positionAt cfgSmall 1) =
      ([0, 1, 2] : List ℚ).getD 1 0 :=
  ⟨by norm_num [cfgSmall], by norm_num [cfgSmall], by norm_num,
    valueAt_grid_exact cfgSmall ⟨[0, 1, 2]⟩ 1 (by norm_num [cfgSmall])
      (by norm_num [cfgSmall]) (by norm_num)⟩

/-- Claim C7, counterexample.  An undriven oscillator with positive damping
(0.5) and nonzero velocity (1) whose stretched spring (k = 0.5, y = 1000)
accelerates it: after one tick the speed grows from 1 to 941/60, so the
velocity magnitude does not decrease tick-over-tick as claimed. -/
theorem damping_counterexample :
    0 < dampedSwing.damping ∧ dampedSwing.velocity ≠ 0 ∧
    |dampedSwing.velocity| < |(updatePosition cfgStd dampedSwing 0 0).velocity| := by
  refine ⟨by norm_num [dampedSwing], by norm_num [dampedSwing], ?_⟩
  have hv : (updatePosition cfgStd dampedSwing 0 0).velocity = -941/60 := by
    simp [updatePosition, dampedSwing, ChargedParticleType.charge, cfgStd]
    norm_num
  rw [hv]
  rw [show (dampedSwing.velocity : ℚ) = 1 from rfl]
  rw [abs_of_pos (by norm_num), abs_of_neg (by norm_num)]
  norm_num

/-- Claim C7, amended.  For an undriven oscillator with no spring force
(`springConstant = 0`), positive damping and positive mass with
`dt * damping < 2 * mass` (as holds for the declared parameter ranges with
`dt = 1/60`), the velocity magnitude strictly decreases on every tick while
the velocity is nonzero. -/
theorem damping_monotone_nospring (cfg : Cfg) (p : ChargedParticle) (t : ℚ)
    (hk : p.springConstant = 0) (hd : 0 < p.damping) (hm : 0 < p.mass)
    (hdt : 0 < cfg.timeStep) (hsmall : cfg.timeStep * p.damping < 2 * p.mass)
    (hv : p.velocity ≠ 0) :
    |(updatePosition cfg p 0 t).velocity| < |p.velocity| := by
  have key : (updatePosition cfg p 0 t).velocity =
      p.velocity * (1 - cfg.timeStep * p.damping / p.mass) := by
    simp only [updatePosition, hk]
    field_simp
    ring
  have hr0 : 0 < cfg.timeStep * p.damping / p.mass := div_pos (mul_pos hdt hd) hm
  have hr2 : cfg.timeStep * p.damping / p.mass < 2 := (div_lt_iff₀ hm).mpr (by linarith)
  have habs : |1 - cfg.timeStep * p.damping / p.mass| < 1 := by
    rw [abs_lt]
    constructor <;> linarith
  rw [key, abs_mul]
  calc |p.velocity| * |1 - cfg.timeStep * p.damping / p.mass|
      < |p.velocity| * 1 := by
        exact mul_lt_mul_of_pos_left habs (abs_pos.mpr hv)
    _ = |p.velocity| := mul_one _

/-- Claim C7, witness for the amended theorem: the springless damped
oscillator loses speed in one tick. -/
theorem damping_monotone_witness :
    dampedOnly.springConstant = 0 ∧ 0 < dampedOnly.damping ∧
    0 < dampedOnly.mass ∧ 0 < cfgStd.timeStep ∧
    cfgStd.timeStep * dampedOnly.damping < 2 * dampedOnly.mass ∧
    dampedOnly.velocity ≠ 0 ∧
    |(updatePosition cfgStd dampedOnly 0 0).velocity| < |dampedOnly.velocity| :=
  ⟨rfl, by norm_num [dampedOnly], by norm_num [dampedOnly],
    by norm_num [cfgStd], by norm_num [cfgStd, dampedOnly],
    by norm_num [dampedOnly],
    damping_monotone_nospring cfgStd dampedOnly 0 rfl
      (by norm_num [dampedOnly]) (by norm_num [dampedOnly])
      (by norm_num [cfgStd]) (by norm_num [cfgStd, dampedOnly])
      (by norm_num [dampedOnly])⟩

/-- Claim C8.  With particle spacing 0, `max_particles` does not guard the
division: `20.0 / 0.0` is `+inf` in `f32` and the saturating `as u32` cast
returns `u32::MAX = 4294967295`, not the 0 ("no particles fit") the claim
and the spec require. -/
theorem maxParticles_zero_spacing :
    simZeroSpacing.particleSpacing = 0 ∧
    maxParticles cfgStd simZeroSpacing = 4294967295 ∧ (4294967295 : ℕ) ≠ 0 := by
  refine ⟨rfl, ?_, by norm_num⟩
  norm_num [maxParticles, simZeroSpacing, cfgStd]

/-- Claim C9.  On an empty particle collection with a nonzero target count,
`update_particles(false)` evaluates `self.particles.len() - 1 = 0usize - 1`,
an arithmetic underflow (panic in debug builds), modelled as `none`: the
degenerate empty configuration is not tolerated by every engine operation. -/
theorem updateParticles_empty_underflow :
    simEmpty.particles = [] ∧ simEmpty.particleCount ≠ 0 ∧
    updateParticles cfgStd simEmpty false = none :=
  ⟨rfl, by norm_num [simEmpty], rfl⟩

/-- Claim C10, counterexample.  `Simulation::update` also overwrites each
particle mass (and spring constant and damping) with the simulation globals:
with stored particle masses 5 and global mass 7, the masses after the update
are 7, so update mutates more than the transverse kinematics, history,
induced field, field buffers and time. -/
theorem update_mutates_mass :
    (simUpdate cfgSmall simMassT).particles.map (fun p => p.mass) = [7, 7] ∧
    simMassT.particles.map (fun p => p.mass) = [5, 5] ∧
    ([7, 7] : List ℚ) ≠ [5, 5] := by
  refine ⟨?_, by norm_num [simMassT, pMass5], by norm_num⟩
  simp [simUpdate, updateLoopAux, particleUpdate, updateInducedField,
    updatePosition, simMassT, pMass5]

/-- Claim C10, amended.  `Simulation::update` keeps the particle count, every
particle x-position and type, and all simulation parameters; it advances `t`
by one step and overwrites each particle mass, spring constant and damping
with the current globals (besides recomputing kinematics, history, induced
fields and the field buffers). -/
theorem update_frame (cfg : Cfg) (s : Simulation) :
    (simUpdate cfg s).particles.length = s.particles.length ∧
    (simUpdate cfg s).particles.map
        (fun p => (p.posx, p.ptype, p.mass, p.springConstant, p.damping)) =
      s.particles.map
        (fun p => (p.posx, p.ptype, s.particleMass, s.springConstant, s.damping)) ∧
    (simUpdate cfg s).particleCount = s.particleCount ∧
    (simUpdate cfg s).particleSpacing = s.particleSpacing ∧
    (simUpdate cfg s).ptype = s.ptype ∧
    (simUpdate cfg s).springConstant = s.springConstant ∧
    (simUpdate cfg s).particleMass = s.particleMass ∧
    (simUpdate cfg s).damping = s.damping ∧
    (simUpdate cfg s).t = s.t + cfg.timeStep := by
  have hmap := updateLoopAux_frame cfg s.particleMass s.springConstant s.damping
    s.t s.particles (setFromFunction cfg s.waveform s.t)
  refine ⟨?_, ?_, rfl, rfl, rfl, rfl, rfl, rfl, rfl⟩
  · have := congrArg List.length hmap
    simpa [simUpdate] using this
  · simpa [simUpdate] using hmap
